import Mathlib

/-!
Verification development for the knowledge-graph extraction-and-retrieval
core specified by this repository.  The repository itself is a tutorial
notebook whose pipeline steps are all delegated to third-party libraries,
so the specification describes the design of the core subsystem (Chunker,
Extractor glue, Graph Assembler, Graph Store, Retriever).  Every definition
below is therefore modelled from the specification text; each doc comment
names the part of the design it embeds.
-/

namespace KG

/-! ### String normalization (Graph Assembler, entity resolution) -/

/-- Modelled from the spec: the source repository contains no normalization
code; §4.3 requires "normalize surface form (case-fold, trim, strip
determiners)".  Case-folding of a character list. -/
def lowerChars (cs : List Char) : List Char := cs.map Char.toLower

/-- Modelled from the spec: trimming of leading and trailing spaces
(§4.3 "trim"). -/
def trimChars (cs : List Char) : List Char :=
  ((cs.dropWhile (· = ' ')).reverse.dropWhile (· = ' ')).reverse

/-- Modelled from the spec: stripping of a leading English determiner
("the ", "an ", "a ") from an already lower-cased, trimmed form
(§4.3 "strip determiners"). -/
def stripDeterminers (cs : List Char) : List Char :=
  if cs.take 4 = ['t', 'h', 'e', ' '] then cs.drop 4
  else if cs.take 3 = ['a', 'n', ' '] then cs.drop 3
  else if cs.take 2 = ['a', ' '] then cs.drop 2
  else cs

/-- Modelled from the spec: §4.3 entity-resolution normalization of a
surface form: case-fold, trim, strip determiners. -/
def normalizeSurface (s : String) : String :=
  ⟨stripDeterminers (trimChars (lowerChars s.data))⟩

/-! ### Chunker (§4.1) -/

/-- Modelled from the spec: §3 Chunk record
`{id, text, offsetStart, offsetEnd, overlapWithPrev}`. -/
structure Chunk where
  id : Nat
  text : String
  offsetStart : Nat
  offsetEnd : Nat
  overlapWithPrev : Nat
deriving DecidableEq

/-- Modelled from the spec: §7 error taxonomy entry for bad chunk
parameters. -/
inductive ChunkError where
  | InvalidConfig
deriving DecidableEq

/-- Modelled from the spec: §4.1 validity of the chunk configuration:
`size` and `overlap` are positive integers with `overlap < size`. -/
def chunkConfigValid (size overlap : Nat) : Prop :=
  0 < size ∧ 0 < overlap ∧ overlap < size

instance (size overlap : Nat) : Decidable (chunkConfigValid size overlap) := by
  unfold chunkConfigValid; infer_instance

/-- Modelled from the spec: the sliding-window slicer behind §4.1.  Each
window holds up to `size` characters and successive windows start
`dm1 + 1` characters apart (`dm1 + 1 = size - overlap` for a valid
configuration, so consecutive windows share `overlap` characters).  The
`fuel` argument only bounds the recursion; callers pass the text length,
which always suffices because every step consumes at least one character,
and when fuel runs out the whole remainder is emitted as a final window so
no character is ever lost. -/
def slicesGo (size dm1 : Nat) : Nat → List Char → List (List Char)
  | 0, cs => [cs]
  | fuel + 1, cs =>
    if cs.length ≤ size then [cs]
    else cs.take size :: slicesGo size dm1 fuel (cs.drop (dm1 + 1))

/-- Modelled from the spec: construction of one §3 Chunk record from an
indexed window: chunk `i` starts at character offset `i * step` and shares
`ov` characters with its predecessor (the first chunk shares none). -/
def mkChunk (step ov : Nat) (p : Nat × List Char) : Chunk :=
  ⟨p.1, ⟨p.2⟩, p.1 * step, p.1 * step + p.2.length, if p.1 = 0 then 0 else ov⟩

/-- Modelled from the spec: §4.1 `chunk(text, size, overlap)`; fails with
`InvalidConfig` before touching the text unless `size` and `overlap` are
positive with `overlap < size`; otherwise produces the overlapping windows
in source order, tagging each with its index, character offsets and the
overlap shared with its predecessor. -/
def chunk (text : String) (size overlap : Nat) : Except ChunkError (List Chunk) :=
  if chunkConfigValid size overlap then
    .ok (((slicesGo size (size - overlap - 1) text.data.length text.data).enumFrom 0).map
      (mkChunk (size - overlap) overlap))
  else .error .InvalidConfig

/-- Modelled from the spec: §8 "concatenating chunk texts (minus overlaps)":
the first chunk text followed by every later chunk text with its
`overlapWithPrev` leading characters removed. -/
def reconstruct (cl : List Chunk) : String :=
  match cl with
  | [] => ""
  | c :: rest => ⟨c.text.data ++ rest.flatMap fun d => d.text.data.drop d.overlapWithPrev⟩

/-! ### Graph Assembler (§4.3) and data model (§3) -/

/-- Modelled from the spec: §3 EntityMention
`{surfaceForm, proposedType, sourceChunkId, confidence}`.  Chunk ids are
the chunk indices produced by the Chunker, so "earliest chunk order" is
the numeric order on `sourceChunkId`; confidence is an abstract numeric
score. -/
structure EntityMention where
  surfaceForm : String
  proposedType : String
  sourceChunkId : Nat
  confidence : Nat
deriving DecidableEq

/-- Modelled from the spec: §3 RelationMention
`{subjectMention, predicateLabel, objectMention, sourceChunkId, confidence}`. -/
structure RelationMention where
  subjectMention : EntityMention
  predicateLabel : String
  objectMention : EntityMention
  sourceChunkId : Nat
  confidence : Nat
deriving DecidableEq

/-- Modelled from the spec: §4.3 entity dedup key
`(normalizedForm, type)`. -/
abbrev EntityKey := String × String

/-- Modelled from the spec: §3 entityId is "a stable hash of normalized
name+type"; the embedding uses the (injective) identity hash, so an
entity's id is its dedup key itself. -/
def entityKey (m : EntityMention) : EntityKey :=
  (normalizeSurface m.surfaceForm, m.proposedType)

/-- Modelled from the spec: §4.3 relation dedup key
`(subjectEntityId, predicateLabel, objectEntityId)`. -/
abbrev RelKey := EntityKey × String × EntityKey

def relKey (r : RelationMention) : RelKey :=
  (entityKey r.subjectMention, r.predicateLabel, entityKey r.objectMention)

/-- Modelled from the spec: the mutable part of a §3 canonical Entity:
canonicalName together with the confidence and chunk order of the mention
that supplied it, the accumulated alias set, and mentionCount.  The spec
requires aliases never to lose a recorded surface form and merge to be
order-independent, so the alias set accumulates every surface form that
resolved to the entity (the canonical name included) and nothing is
removed when the canonical name changes. -/
structure EntityData where
  canonicalName : String
  canonConf : Nat
  canonChunk : Nat
  aliases : Finset String
  mentionCount : Nat
deriving DecidableEq

/-- Modelled from the spec: the mutable part of a §3 canonical Relation:
accumulated supportCount and provenance chunk-id set. -/
structure RelData where
  supportCount : Nat
  sourceChunkIds : Finset Nat
deriving DecidableEq

/-- Modelled from the spec: §3 Graph, "the set of all Entities and
Relations at a point in time", keyed by the dedup keys. -/
structure Graph where
  entities : Finmap fun _ : EntityKey => EntityData
  relations : Finmap fun _ : RelKey => RelData

instance : DecidableEq Graph := fun g₁ g₂ =>
  decidable_of_iff (g₁.entities = g₂.entities ∧ g₁.relations = g₂.relations)
    (by cases g₁; cases g₂; simp)

/-- The empty graph. -/
def Graph.empty : Graph := ⟨∅, ∅⟩

/-- Modelled from the spec: §4.3 "keep the first-seen surface form as
canonicalName unless a higher-confidence mention's form is provided
(tie-break: earliest chunk order wins on confidence ties)": a new mention
replaces the stored canonical name exactly when it is strictly better,
i.e. has higher confidence, or equal confidence and strictly earlier
chunk order. -/
def strictlyBetter (m : EntityMention) (e : EntityData) : Prop :=
  e.canonConf < m.confidence ∨
    (m.confidence = e.canonConf ∧ m.sourceChunkId < e.canonChunk)

instance (m : EntityMention) (e : EntityData) : Decidable (strictlyBetter m e) := by
  unfold strictlyBetter; infer_instance

/-- Modelled from the spec: §4.3 "on merge, accumulate aliases, increment
mentionCount" and the canonical-name rule above. -/
def bump (m : EntityMention) (e : EntityData) : EntityData :=
  if strictlyBetter m e then
    ⟨m.surfaceForm, m.confidence, m.sourceChunkId,
      insert m.surfaceForm e.aliases, e.mentionCount + 1⟩
  else
    ⟨e.canonicalName, e.canonConf, e.canonChunk,
      insert m.surfaceForm e.aliases, e.mentionCount + 1⟩

/-- Modelled from the spec: the Entity created by the first mention with a
given key: its surface form is the first-seen canonical name. -/
def initED (m : EntityMention) : EntityData :=
  ⟨m.surfaceForm, m.confidence, m.sourceChunkId, {m.surfaceForm}, 1⟩

/-- Modelled from the spec: §4.3 entity resolution: a mention is merged
into the unique entity with its `(normalizedForm, type)` key, creating it
if absent; no fuzzy or semantic matching. -/
def applyEntity (g : Graph) (m : EntityMention) : Graph :=
  { g with
    entities :=
      g.entities.insert (entityKey m)
        (match g.entities.lookup (entityKey m) with
          | none => initED m
          | some e => bump m e) }

/-- Modelled from the spec: §4.3 relation resolution: dedup by
`(subjectEntityId, predicateLabel, objectEntityId)`, accumulating
supportCount and sourceChunkIds, never dropping provenance. -/
def applyRelTable (g : Graph) (r : RelationMention) : Graph :=
  { g with
    relations :=
      g.relations.insert (relKey r)
        (match g.relations.lookup (relKey r) with
          | none => ⟨1, {r.sourceChunkId}⟩
          | some d => ⟨d.supportCount + 1, insert r.sourceChunkId d.sourceChunkIds⟩) }

/-- Modelled from the spec: merging one RelationMention first resolves
both endpoint mentions to canonical Entities (creating or updating them),
then accumulates the canonical relation. -/
def applyRelation (g : Graph) (r : RelationMention) : Graph :=
  applyRelTable (applyEntity (applyEntity g r.subjectMention) r.objectMention) r

/-- A single extracted mention: an entity mention or a relation mention. -/
inductive Mention where
  | ent (m : EntityMention)
  | rel (r : RelationMention)
deriving DecidableEq

/-- Merging one mention into the graph. -/
def applyMention (g : Graph) : Mention → Graph
  | .ent m => applyEntity g m
  | .rel r => applyRelation g r

/-- Modelled from the spec: §4.3
`merge(existingGraph, mentions, relations) → updatedGraph`, processed
mention by mention; a batch is a list of mentions. -/
def mergeMentions (g : Graph) (ms : List Mention) : Graph :=
  ms.foldl applyMention g

/-- The §4.3 merge contract applied to a batch of entity mentions and
relation mentions. -/
def merge (g : Graph) (ems : List EntityMention) (rms : List RelationMention) : Graph :=
  mergeMentions g (ems.map Mention.ent ++ rms.map Mention.rel)

/-- The entity mentions a single merged mention resolves: an entity
mention itself, or the two endpoints of a relation mention. -/
def constituents : Mention → List EntityMention
  | .ent m => [m]
  | .rel r => [r.subjectMention, r.objectMention]

/-- The mentionCount recorded for an entity key (0 when absent). -/
def mentionCountOf (g : Graph) (k : EntityKey) : Nat :=
  match g.entities.lookup k with
  | none => 0
  | some e => e.mentionCount

/-- The alias set recorded for an entity key (empty when absent). -/
def aliasesOf (g : Graph) (k : EntityKey) : Finset String :=
  match g.entities.lookup k with
  | none => ∅
  | some e => e.aliases

/-- The supportCount recorded for a relation key (0 when absent). -/
def relSupport (g : Graph) (k : RelKey) : Nat :=
  match g.relations.lookup k with
  | none => 0
  | some d => d.supportCount

/-- The provenance chunk-id set recorded for a relation key. -/
def relChunks (g : Graph) (k : RelKey) : Finset Nat :=
  match g.relations.lookup k with
  | none => ∅
  | some d => d.sourceChunkIds

/-- The relation mentions of a mention list. -/
def relMentions : List Mention → List RelationMention
  | [] => []
  | .ent _ :: ms => relMentions ms
  | .rel r :: ms => r :: relMentions ms

/-- How many entity-mention resolutions a mention list sends to key `k`. -/
def keyHits (ms : List Mention) (k : EntityKey) : Nat :=
  (ms.flatMap constituents).countP fun x => decide (entityKey x = k)

/-- How many relation mentions of a mention list carry relation key `k`. -/
def relHits (ms : List Mention) (k : RelKey) : Nat :=
  (relMentions ms).countP fun r => decide (relKey r = k)

/-- The provenance chunk ids contributed to relation key `k` by a mention
list. -/
def relChunkIds (ms : List Mention) (k : RelKey) : Finset Nat :=
  ((relMentions ms).filter fun r => decide (relKey r = k)).toFinset.image
    RelationMention.sourceChunkId

/-- Two entity mentions are tie-compatible when they are equal or do not
tie on all of key, confidence and chunk order; the spec's canonical-name
rule is deterministic exactly on tie-compatible mentions. -/
def TieCompat (m₁ m₂ : EntityMention) : Prop :=
  m₁ = m₂ ∨
    ¬ (entityKey m₁ = entityKey m₂ ∧ m₁.confidence = m₂.confidence ∧
        m₁.sourceChunkId = m₂.sourceChunkId)

instance (m₁ m₂ : EntityMention) : Decidable (TieCompat m₁ m₂) := by
  unfold TieCompat; infer_instance

/-- Tie-compatibility of every entity resolution of one mention with every
entity resolution of another. -/
def MentionCompat (a b : Mention) : Prop :=
  ∀ x ∈ constituents a, ∀ y ∈ constituents b, TieCompat x y

instance (a b : Mention) : Decidable (MentionCompat a b) := by
  unfold MentionCompat; infer_instance

/-- A mention list is tie-free when all its mentions are pairwise
tie-compatible. -/
def TieFree (ms : List Mention) : Prop :=
  ∀ a ∈ ms, ∀ b ∈ ms, MentionCompat a b

instance (ms : List Mention) : Decidable (TieFree ms) := by
  unfold TieFree; infer_instance


/-- Mentions used in the order-independence examples: one chunk's
extraction output. -/
def c1Batch₁ : List Mention :=
  [.ent ⟨"Sarah", "Person", 0, 3⟩,
   .rel ⟨⟨"Sarah", "Person", 0, 2⟩, "works_at", ⟨"prismaticAI", "Organization", 0, 1⟩, 0, 2⟩]

/-- Mentions used in the order-independence examples: a second chunk's
extraction output. -/
def c1Batch₂ : List Mention :=
  [.ent ⟨"Michael", "Person", 1, 5⟩,
   .rel ⟨⟨"michael", "Person", 1, 4⟩, "works_at", ⟨"PrismaticAI", "Organization", 1, 6⟩, 1, 4⟩]

/-- The combined two-chunk mention batch of the examples. -/
def c1List : List Mention := c1Batch₁ ++ c1Batch₂

/-- A mention that fully ties with `c1TieB` (same key, confidence and
chunk) under a different surface form. -/
def c1TieA : Mention := .ent ⟨"Sarah", "Person", 0, 1⟩

/-- A mention that fully ties with `c1TieA` (same key, confidence and
chunk) under a different surface form. -/
def c1TieB : Mention := .ent ⟨"SARAH", "Person", 0, 1⟩

/-- The first Sarah/prismaticAI works_at relation mention of the spec's
dedup example (chunk 0). -/
def c2Rel₁ : RelationMention :=
  ⟨⟨"Sarah", "Person", 0, 1⟩, "works_at", ⟨"prismaticAI", "Organization", 0, 1⟩, 0, 1⟩

/-- The second works_at relation mention of the spec's dedup example
(chunk 1, different surface capitalization). -/
def c2Rel₂ : RelationMention :=
  ⟨⟨"sarah", "Person", 1, 1⟩, "works_at", ⟨"PrismaticAI", "Organization", 1, 1⟩, 1, 1⟩

/-- The canonical relation key both example mentions resolve to. -/
def c2Key : RelKey := (("sarah", "Person"), "works_at", ("prismaticai", "Organization"))

/-! ### Extractor glue and batch pipeline (§4.2, §7) -/

/-- Modelled from the spec: §4.2 the parsed, schema-validated output of
one extraction call: entity mentions and relation mentions. -/
structure ExtractionOut where
  entityMentions : List EntityMention
  relationMentions : List RelationMention
deriving DecidableEq

/-- Modelled from the spec: §4.2/§7 transient collaborator failures
(timeouts, malformed model output) that are retried. -/
inductive TransientError where
  | ModelTimeout
  | MalformedOutput
deriving DecidableEq

/-- Modelled from the spec: the external language-model collaborator as
seen by the Extractor, indexed by chunk id and attempt number. -/
def Collaborator : Type := Nat → Nat → Except TransientError ExtractionOut

/-- Attempts `n` extraction calls for a chunk starting at attempt index
`i`, returning the first success. -/
def attemptFrom (ex : Collaborator) (cid : Nat) : Nat → Nat → Option ExtractionOut
  | _, 0 => none
  | i, n + 1 =>
    match ex cid i with
    | .ok r => some r
    | .error _ => attemptFrom ex cid (i + 1) n

/-- Modelled from the spec: §4.2 bounded retry budget ("e.g., 3"). -/
def retryLimit : Nat := 3

/-- Modelled from the spec: §4.2 extraction of one chunk with bounded
retries; `none` is the ExtractionFailed outcome for that chunk id. -/
def extractChunk (ex : Collaborator) (cid : Nat) : Option ExtractionOut :=
  attemptFrom ex cid 0 retryLimit

/-- The mention batch contributed by one successful extraction. -/
def mentionsOf (r : ExtractionOut) : List Mention :=
  r.entityMentions.map .ent ++ r.relationMentions.map .rel

/-- Modelled from the spec: §7 batch processing with partial-failure
isolation: every chunk is extracted independently; successes are merged
into the graph, failures are recorded by chunk id and do not abort the
rest of the batch.  Returns the updated graph and the failed chunk ids. -/
def processBatch (ex : Collaborator) (g : Graph) : List Nat → Graph × List Nat
  | [] => (g, [])
  | cid :: rest =>
    match extractChunk ex cid with
    | some r => processBatch ex (mergeMentions g (mentionsOf r)) rest
    | none =>
      let p := processBatch ex g rest
      (p.1, cid :: p.2)

/-! ### Graph Store snapshot and Retriever (§4.4, §4.5) -/

/-- Modelled from the spec: a stored canonical relation as the Retriever
sees it: a relationId plus the §4.3 relation key fields. -/
structure RelEntry where
  relationId : Nat
  subject : EntityKey
  predicate : String
  object : EntityKey
deriving DecidableEq

/-- Modelled from the spec: §4.4 the in-memory reference Graph Store
snapshot: entities (key and canonicalName) and relations, in a fixed
deterministic snapshot order. -/
structure GS where
  entities : List (EntityKey × String)
  relations : List RelEntry
deriving DecidableEq

/-- Splits a character list into maximal alphanumeric words (`acc` holds
the current word reversed). -/
def tokenSplit : List Char → List Char → List (List Char)
  | [], acc => if acc.isEmpty then [] else [acc.reverse]
  | c :: cs, acc =>
    if c.isAlphanum then tokenSplit cs (c :: acc)
    else if acc.isEmpty then tokenSplit cs []
    else acc.reverse :: tokenSplit cs []

/-- Modelled from the spec: §4.5 step (1) lightweight deterministic
keyword extraction from the query: lower-cased alphanumeric words. -/
def queryTokens (q : String) : List String :=
  (tokenSplit q.data []).map fun w => ⟨w.map Char.toLower⟩

/-- Modelled from the spec: §4.4 `findEntitiesByName(normalizedForm)`:
the stored entity keys whose normalized name equals the given form. -/
def findEntitiesByName (g : GS) (nm : String) : List EntityKey :=
  (g.entities.map Prod.fst).filter fun k => k.1 == nm

/-- Modelled from the spec: §4.5 step (1): seed entities are the stored
entities matched by some query keyword, deduplicated, in snapshot order;
no external model call. -/
def seedKeys (q : String) (g : GS) : List EntityKey :=
  ((queryTokens q).flatMap (findEntitiesByName g)).dedup

/-- The neighbours of an entity along stored relations (either
direction). -/
def adjKeys (g : GS) (k : EntityKey) : List EntityKey :=
  g.relations.filterMap fun r =>
    if r.subject = k then some r.object
    else if r.object = k then some r.subject
    else none

/-- One breadth-first expansion step: the not-yet-visited neighbours of
the frontier, deduplicated, in discovery order. -/
def nextFrontier (g : GS) (frontier visited : List EntityKey) : List EntityKey :=
  ((frontier.flatMap (adjKeys g)).dedup).filter fun k => decide (k ∉ visited)

/-- Modelled from the spec: §4.5 step (3) breadth-first levels: at most
`d` further levels beyond the frontier, stopping when no new entity is
reachable. -/
def expandLevels (g : GS) : Nat → List EntityKey → List EntityKey → List (List EntityKey)
  | 0, _, _ => []
  | d + 1, frontier, visited =>
    let nf := nextFrontier g frontier visited
    if nf.isEmpty then [] else nf :: expandLevels g d nf (visited ++ nf)

/-- The breadth-first levels of a query: the seeds, then up to `hd`
expansion levels. -/
def bfsLevels (g : GS) (q : String) (hd : Nat) : List (List EntityKey) :=
  seedKeys q g :: expandLevels g hd (seedKeys q g) (seedKeys q g)

/-- Modelled from the spec: §3 RetrievalContext
`{seedEntityIds, subgraph: (entities, relations), hopDepth,
textualSummary}`. -/
structure RetrievalContext where
  seedEntityIds : List EntityKey
  subgraphEntities : List EntityKey
  subgraphRelations : List RelEntry
  hopDepth : Nat
  textualSummary : List String
deriving DecidableEq

/-- Modelled from the spec: §7 the recoverable seed-lookup failure. -/
inductive RetrieveError where
  | NoSeedEntity
deriving DecidableEq

/-- The stored canonical name of an entity key (empty when absent). -/
def nameOf (g : GS) (k : EntityKey) : String :=
  match g.entities.find? (fun p => p.1 == k) with
  | some p => p.2
  | none => ""

/-- Modelled from the spec: §4.5 step (4) one summary line
"Entity --predicate--> Entity". -/
def relLine (g : GS) (r : RelEntry) : String :=
  nameOf g r.subject ++ " --" ++ r.predicate ++ "--> " ++ nameOf g r.object

/-- Insertion into a list sorted by relationId. -/
def insertByRelId (x : RelEntry) : List RelEntry → List RelEntry
  | [] => [x]
  | y :: ys =>
    if x.relationId ≤ y.relationId then x :: y :: ys else y :: insertByRelId x ys

/-- Modelled from the spec: §4.5 step (4) sorting the collected relations
by relationId for reproducibility. -/
def sortByRelId : List RelEntry → List RelEntry
  | [] => []
  | x :: xs => insertByRelId x (sortByRelId xs)

/-- Modelled from the spec: §4.5
`retrieve(query, graphStore, hopDepth, maxNodes)`: seed lookup, failure
with NoSeedEntity when no seed matches, breadth-first expansion collecting
at most `maxNodes` entities (closer levels first), the relations among the
collected entities sorted by relationId, and the deterministic textual
summary. -/
def retrieve (q : String) (g : GS) (hopDepth maxNodes : Nat) :
    Except RetrieveError RetrievalContext :=
  if (seedKeys q g).isEmpty then .error .NoSeedEntity
  else
    let kept := (bfsLevels g q hopDepth).flatten.take maxNodes
    let rels := sortByRelId (g.relations.filter fun r =>
      decide (r.subject ∈ kept) && decide (r.object ∈ kept))
    .ok ⟨seedKeys q g, kept, rels, hopDepth, rels.map (relLine g)⟩

/-- Reachability from a seed set within a bounded number of hops along
stored relations. -/
inductive ReachWithin (g : GS) (seeds : List EntityKey) : Nat → EntityKey → Prop
  | seed (n : Nat) (k : EntityKey) (h : k ∈ seeds) : ReachWithin g seeds n k
  | step (n : Nat) (k k' : EntityKey) (h : ReachWithin g seeds n k)
      (ha : k' ∈ adjKeys g k) : ReachWithin g seeds (n + 1) k'

/-- The example graph of the spec: Sarah and Michael work at prismaticAI. -/
def gsExample : GS :=
  { entities :=
      [(("sarah", "Person"), "Sarah"),
       (("prismaticai", "Organization"), "prismaticAI"),
       (("michael", "Person"), "Michael")],
    relations :=
      [⟨0, ("sarah", "Person"), "works_at", ("prismaticai", "Organization")⟩,
       ⟨1, ("michael", "Person"), "works_at", ("prismaticai", "Organization")⟩] }

instance {ε α : Type} [DecidableEq ε] [DecidableEq α] : DecidableEq (Except ε α) := fun a b =>
  match a, b with
  | .ok x, .ok y => decidable_of_iff (x = y) (by simp)
  | .error x, .error y => decidable_of_iff (x = y) (by simp)
  | .ok _, .error _ => isFalse (by simp)
  | .error _, .ok _ => isFalse (by simp)

/-- The RetrievalContext returned for the spec's example query on the
example graph (a default dummy in the impossible error case). -/
def exampleCtx : RetrievalContext :=
  match retrieve "Where does Sarah work?" gsExample 2 50 with
  | .ok ctx => ctx
  | .error _ => ⟨[], [], [], 0, []⟩

theorem slicesGo_flatMap_drop (size ov : Nat) (hov : ov < size) :
    ∀ (fuel : Nat) (cs : List Char),
      (slicesGo size (size - ov - 1) fuel cs).flatMap (List.drop ov) = cs.drop ov := by
  intro fuel
  induction fuel with
  | zero => intro cs; simp [slicesGo]
  | succ n ih =>
    intro cs
    by_cases h : cs.length ≤ size
    · simp [slicesGo, h]
    · have hstep : size - ov - 1 + 1 = size - ov := by omega
      simp only [slicesGo, if_neg h, List.flatMap_cons, ih, hstep]
      rw [List.drop_take, List.drop_drop]
      have h1 : size - ov + ov = ov + (size - ov) := by omega
      rw [h1, ← List.drop_drop, List.take_append_drop]

theorem slicesGo_ne_nil (size dm1 fuel : Nat) (cs : List Char) :
    slicesGo size dm1 fuel cs ≠ [] := by
  cases fuel with
  | zero => simp [slicesGo]
  | succ n =>
    by_cases h : cs.length ≤ size <;> simp [slicesGo, h]

theorem headRecon_slicesGo (size ov : Nat) (hov : ov < size) :
    ∀ (fuel : Nat) (cs : List Char),
      (match slicesGo size (size - ov - 1) fuel cs with
        | [] => ([] : List Char)
        | c :: rest => c ++ rest.flatMap (List.drop ov)) = cs := by
  intro fuel cs
  cases fuel with
  | zero => simp [slicesGo]
  | succ n =>
    by_cases h : cs.length ≤ size
    · simp [slicesGo, h]
    · have hstep : size - ov - 1 + 1 = size - ov := by omega
      simp only [slicesGo, if_neg h, hstep]
      rw [slicesGo_flatMap_drop size ov hov, List.drop_drop]
      have h1 : size - ov + ov = size := by omega
      rw [h1, List.take_append_drop]

theorem flatMap_map_mkChunk (step ov : Nat) :
    ∀ (sl : List (List Char)) (i : Nat), i ≠ 0 →
      ((sl.enumFrom i).map (mkChunk step ov)).flatMap
          (fun d => d.text.data.drop d.overlapWithPrev)
        = sl.flatMap (List.drop ov) := by
  intro sl
  induction sl with
  | nil => intro i _; rfl
  | cons c rest ih =>
    intro i hi
    simp only [List.enumFrom_cons, List.map_cons, List.flatMap_cons, mkChunk]
    rw [ih (i + 1) (Nat.succ_ne_zero i)]
    simp [if_neg hi]

/-- C4: for every input text and every valid configuration, `chunk`
succeeds, yields at least one chunk, the chunks appear in source order
(strictly increasing start offsets), and concatenating the chunk texts
minus the overlaps reconstructs the input exactly. -/
theorem C4_chunk_preserves_input (text : String) (size overlap : Nat)
    (hv : chunkConfigValid size overlap) :
    ∃ cl, chunk text size overlap = .ok cl ∧ cl ≠ [] ∧ reconstruct cl = text ∧
      ∀ (i j : Nat) (hi : i < cl.length) (hj : j < cl.length), i < j →
        (cl.get ⟨i, hi⟩).offsetStart < (cl.get ⟨j, hj⟩).offsetStart := by
  obtain ⟨hs, ho, hov⟩ := hv
  refine ⟨_, by rw [chunk, if_pos ⟨hs, ho, hov⟩], ?_, ?_, ?_⟩
  · have := slicesGo_ne_nil size (size - overlap - 1) text.data.length text.data
    simpa using this
  · have hhead := headRecon_slicesGo size overlap hov text.data.length text.data
    cases hsl : slicesGo size (size - overlap - 1) text.data.length text.data with
    | nil => exact absurd hsl (slicesGo_ne_nil _ _ _ _)
    | cons c rest =>
      rw [hsl] at hhead
      simp only [List.enumFrom_cons, List.map_cons, reconstruct, mkChunk]
      rw [flatMap_map_mkChunk (size - overlap) overlap rest 1 one_ne_zero]
      exact congrArg String.mk hhead
  · intro i j hi hj hij
    simp only [List.get_eq_getElem, List.getElem_map, List.getElem_enumFrom, mkChunk,
      Nat.zero_add]
    have hstep : 0 < size - overlap := by omega
    exact (Nat.mul_lt_mul_right hstep).mpr hij

/-- C7: `chunk` fails with `InvalidConfig` exactly when `size` and
`overlap` are not positive integers with `overlap < size`; the rejection
is independent of the text, which is never examined in that case. -/
theorem C7_chunk_invalid_config (text : String) (size overlap : Nat) :
    (chunk text size overlap = .error .InvalidConfig ↔
      ¬ chunkConfigValid size overlap) ∧
    (¬ chunkConfigValid size overlap →
      ∀ other : String, chunk text size overlap = chunk other size overlap) := by
  constructor
  · rw [chunk]
    split_ifs with hv
    · simp [hv]
    · simp [hv]
  · intro hv other
    rw [chunk, if_neg hv, chunk, if_neg hv]

/-- Witness: the spec's own example, chunking
"Sarah is an employee at prismaticAI." with size 20 and overlap 5. -/
theorem C4_chunk_preserves_input_witness :
    chunkConfigValid 20 5 ∧
    ∃ cl, chunk "Sarah is an employee at prismaticAI." 20 5 = .ok cl ∧ cl ≠ [] ∧
      reconstruct cl = "Sarah is an employee at prismaticAI." ∧
      ∀ (i j : Nat) (hi : i < cl.length) (hj : j < cl.length), i < j →
        (cl.get ⟨i, hi⟩).offsetStart < (cl.get ⟨j, hj⟩).offsetStart :=
  ⟨by decide, C4_chunk_preserves_input "Sarah is an employee at prismaticAI." 20 5 (by decide)⟩

/-! ### Graph Assembler lemmas -/

theorem bump_mentionCount (m : EntityMention) (e : EntityData) :
    (bump m e).mentionCount = e.mentionCount + 1 := by
  unfold bump; split_ifs <;> rfl

theorem bump_aliases (m : EntityMention) (e : EntityData) :
    (bump m e).aliases = insert m.surfaceForm e.aliases := by
  unfold bump; split_ifs <;> rfl

theorem relations_applyEntity (g : Graph) (m : EntityMention) :
    (applyEntity g m).relations = g.relations := rfl

theorem entities_applyRelTable (g : Graph) (r : RelationMention) :
    (applyRelTable g r).entities = g.entities := rfl

theorem lookup_applyEntity (g : Graph) (m : EntityMention) (k : EntityKey) :
    (applyEntity g m).entities.lookup k =
      if k = entityKey m then
        some (match g.entities.lookup (entityKey m) with
          | none => initED m
          | some e => bump m e)
      else g.entities.lookup k := by
  by_cases h : k = entityKey m
  · subst h; simp [applyEntity, Finmap.lookup_insert]
  · simp [applyEntity, Finmap.lookup_insert_of_ne _ h, h]

theorem mentionCountOf_applyEntity (g : Graph) (m : EntityMention) (k : EntityKey) :
    mentionCountOf (applyEntity g m) k =
      mentionCountOf g k + (if entityKey m = k then 1 else 0) := by
  unfold mentionCountOf
  rw [lookup_applyEntity]
  by_cases h : k = entityKey m
  · subst h
    simp only [if_pos rfl]
    cases g.entities.lookup (entityKey m) with
    | none => simp [initED]
    | some e => simp [bump_mentionCount]
  · have h' : ¬ entityKey m = k := fun hh => h hh.symm
    simp [h, h']

theorem mentionCountOf_applyMention (g : Graph) (a : Mention) (k : EntityKey) :
    mentionCountOf (applyMention g a) k =
      mentionCountOf g k + (constituents a).countP (fun x => decide (entityKey x = k)) := by
  cases a with
  | ent m =>
    by_cases h : entityKey m = k <;>
      simp [applyMention, constituents, mentionCountOf_applyEntity, List.countP_cons, h]
  | rel r =>
    have hrt : mentionCountOf (applyMention g (.rel r)) k =
        mentionCountOf (applyEntity (applyEntity g r.subjectMention) r.objectMention) k := rfl
    rw [hrt, mentionCountOf_applyEntity, mentionCountOf_applyEntity]
    by_cases h1 : entityKey r.subjectMention = k <;>
      by_cases h2 : entityKey r.objectMention = k <;>
        simp [constituents, List.countP_cons, h1, h2]

theorem mentionCountOf_mergeMentions (g : Graph) (ms : List Mention) (k : EntityKey) :
    mentionCountOf (mergeMentions g ms) k = mentionCountOf g k + keyHits ms k := by
  induction ms generalizing g with
  | nil => simp [mergeMentions, keyHits, relMentions]
  | cons a ms ih =>
    have h1 : mergeMentions g (a :: ms) = mergeMentions (applyMention g a) ms := rfl
    rw [h1, ih, mentionCountOf_applyMention]
    unfold keyHits
    rw [List.flatMap_cons, List.countP_append]
    omega

theorem lookup_applyRelTable (g : Graph) (r : RelationMention) (k : RelKey) :
    (applyRelTable g r).relations.lookup k =
      if k = relKey r then
        some (match g.relations.lookup (relKey r) with
          | none => ⟨1, {r.sourceChunkId}⟩
          | some d => ⟨d.supportCount + 1, insert r.sourceChunkId d.sourceChunkIds⟩)
      else g.relations.lookup k := by
  by_cases h : k = relKey r
  · subst h; simp [applyRelTable, Finmap.lookup_insert]
  · simp [applyRelTable, Finmap.lookup_insert_of_ne _ h, h]

theorem relMentions_cons (a : Mention) (ms : List Mention) :
    relMentions (a :: ms) = relMentions [a] ++ relMentions ms := by
  cases a <;> rfl

theorem relSupport_applyMention (g : Graph) (a : Mention) (k : RelKey) :
    relSupport (applyMention g a) k =
      relSupport g k + (relMentions [a]).countP (fun r => decide (relKey r = k)) := by
  cases a with
  | ent m => simp [applyMention, relSupport, relations_applyEntity, relMentions]
  | rel r =>
    have hrel : (applyMention g (.rel r)).relations = (applyRelTable g r).relations := rfl
    unfold relSupport
    rw [hrel, lookup_applyRelTable]
    by_cases h : k = relKey r
    · subst h
      simp only [if_pos rfl]
      cases g.relations.lookup (relKey r) with
      | none => simp [relMentions]
      | some d => simp [relMentions]
    · have h' : ¬ relKey r = k := fun hh => h hh.symm
      simp [h, h', relMentions]

theorem relSupport_mergeMentions (g : Graph) (ms : List Mention) (k : RelKey) :
    relSupport (mergeMentions g ms) k = relSupport g k + relHits ms k := by
  induction ms generalizing g with
  | nil => simp [mergeMentions, relHits, relMentions]
  | cons a ms ih =>
    have h1 : mergeMentions g (a :: ms) = mergeMentions (applyMention g a) ms := rfl
    rw [h1, ih, relSupport_applyMention]
    unfold relHits
    cases a <;> simp [relMentions, List.countP_cons] <;> omega

theorem relChunkIds_cons (a : Mention) (ms : List Mention) (k : RelKey) :
    relChunkIds (a :: ms) k = relChunkIds [a] k ∪ relChunkIds ms k := by
  unfold relChunkIds
  rw [relMentions_cons, List.filter_append, List.toFinset_append, Finset.image_union]

theorem relChunks_applyMention (g : Graph) (a : Mention) (k : RelKey) :
    relChunks (applyMention g a) k = relChunks g k ∪ relChunkIds [a] k := by
  cases a with
  | ent m => simp [applyMention, relChunks, relations_applyEntity, relChunkIds, relMentions]
  | rel r =>
    have hrel : (applyMention g (.rel r)).relations = (applyRelTable g r).relations := rfl
    unfold relChunks
    rw [hrel, lookup_applyRelTable]
    by_cases h : k = relKey r
    · subst h
      simp only [if_pos rfl]
      cases g.relations.lookup (relKey r) with
      | none => simp [relChunkIds, relMentions]
      | some d =>
        simp [relChunkIds, relMentions, Finset.insert_eq, Finset.union_comm]
    · have h' : ¬ relKey r = k := fun hh => h hh.symm
      simp [h, h', relChunkIds, relMentions]

theorem relChunks_mergeMentions (g : Graph) (ms : List Mention) (k : RelKey) :
    relChunks (mergeMentions g ms) k = relChunks g k ∪ relChunkIds ms k := by
  induction ms generalizing g with
  | nil => simp [mergeMentions, relChunkIds, relMentions]
  | cons a ms ih =>
    have h1 : mergeMentions g (a :: ms) = mergeMentions (applyMention g a) ms := rfl
    rw [h1, ih, relChunks_applyMention,
      show relChunkIds (a :: ms) k = relChunkIds [a] k ∪ relChunkIds ms k from
        relChunkIds_cons a ms k,
      Finset.union_assoc]

theorem aliasesOf_applyEntity_subset (g : Graph) (m : EntityMention) (k : EntityKey) :
    aliasesOf g k ⊆ aliasesOf (applyEntity g m) k := by
  unfold aliasesOf
  rw [lookup_applyEntity]
  by_cases h : k = entityKey m
  · subst h
    simp only [if_pos rfl]
    cases g.entities.lookup (entityKey m) with
    | none => simp
    | some e => simp [bump_aliases, Finset.subset_insert]
  · simp [h]

theorem aliasesOf_applyMention_subset (g : Graph) (a : Mention) (k : EntityKey) :
    aliasesOf g k ⊆ aliasesOf (applyMention g a) k := by
  cases a with
  | ent m => exact aliasesOf_applyEntity_subset g m k
  | rel r =>
    have h1 : aliasesOf (applyMention g (.rel r)) k =
        aliasesOf (applyEntity (applyEntity g r.subjectMention) r.objectMention) k := rfl
    rw [h1]
    exact (aliasesOf_applyEntity_subset g r.subjectMention k).trans
      (aliasesOf_applyEntity_subset _ r.objectMention k)

theorem aliasesOf_mergeMentions_subset (g : Graph) (ms : List Mention) (k : EntityKey) :
    aliasesOf g k ⊆ aliasesOf (mergeMentions g ms) k := by
  induction ms generalizing g with
  | nil => simp [mergeMentions]
  | cons a ms ih =>
    have h1 : mergeMentions g (a :: ms) = mergeMentions (applyMention g a) ms := rfl
    rw [h1]
    exact (aliasesOf_applyMention_subset g a k).trans (ih (applyMention g a))

theorem mem_keys_applyEntity (g : Graph) (m : EntityMention) (k : EntityKey) :
    k ∈ (applyEntity g m).entities.keys ↔ k = entityKey m ∨ k ∈ g.entities.keys := by
  simp [applyEntity, Finmap.mem_keys, Finmap.mem_insert]

theorem mem_keys_mergeMentions (g : Graph) (ms : List Mention) (k : EntityKey) :
    k ∈ (mergeMentions g ms).entities.keys ↔
      k ∈ g.entities.keys ∨ k ∈ (ms.flatMap constituents).map entityKey := by
  induction ms generalizing g with
  | nil => simp [mergeMentions]
  | cons a ms ih =>
    have h1 : mergeMentions g (a :: ms) = mergeMentions (applyMention g a) ms := rfl
    rw [h1, ih]
    cases a with
    | ent m =>
      rw [show applyMention g (.ent m) = applyEntity g m from rfl]
      simp [mem_keys_applyEntity, constituents]
      tauto
    | rel r =>
      have h2 : (applyMention g (.rel r)).entities =
          (applyEntity (applyEntity g r.subjectMention) r.objectMention).entities := rfl
      rw [h2]
      simp [mem_keys_applyEntity, constituents]
      tauto

/-! ### Order independence of merge -/

theorem tieCompat_swap {m₁ m₂ : EntityMention} (h : TieCompat m₁ m₂) : TieCompat m₂ m₁ := by
  rcases h with h | h
  · exact Or.inl h.symm
  · exact Or.inr fun ⟨hk, hc, hs⟩ => h ⟨hk.symm, hc.symm, hs.symm⟩

theorem TieCompat.no_tie {m₁ m₂ : EntityMention} (tc : TieCompat m₁ m₂)
    (hm : m₁ ≠ m₂) (hk : entityKey m₁ = entityKey m₂) :
    ¬ (m₁.confidence = m₂.confidence ∧ m₁.sourceChunkId = m₂.sourceChunkId) := by
  rintro ⟨h1, h2⟩
  rcases tc with h | h
  · exact hm h
  · exact h ⟨hk, h1, h2⟩

theorem bump_bump_comm (m₁ m₂ : EntityMention) (e : EntityData)
    (tc : TieCompat m₁ m₂) (hk : entityKey m₁ = entityKey m₂) :
    bump m₂ (bump m₁ e) = bump m₁ (bump m₂ e) := by
  by_cases hm : m₁ = m₂
  · subst hm; rfl
  · have hcc := tc.no_tie hm hk
    unfold bump strictlyBetter
    split_ifs <;> simp_all [Finset.Insert.comm] <;> omega

theorem bump_init_comm (m₁ m₂ : EntityMention)
    (tc : TieCompat m₁ m₂) (hk : entityKey m₁ = entityKey m₂) :
    bump m₂ (initED m₁) = bump m₁ (initED m₂) := by
  by_cases hm : m₁ = m₂
  · subst hm; rfl
  · have hcc := tc.no_tie hm hk
    unfold bump initED strictlyBetter
    split_ifs <;> simp_all [Finset.Insert.comm, Finset.pair_comm] <;> omega

theorem applyEntity_comm (g : Graph) (m₁ m₂ : EntityMention) (tc : TieCompat m₁ m₂) :
    applyEntity (applyEntity g m₁) m₂ = applyEntity (applyEntity g m₂) m₁ := by
  by_cases hk : entityKey m₁ = entityKey m₂
  · unfold applyEntity
    congr 1
    rw [← hk, Finmap.lookup_insert, Finmap.lookup_insert,
      Finmap.insert_insert, Finmap.insert_insert]
    cases hl : g.entities.lookup (entityKey m₁) with
    | none => simp only [hl]; rw [bump_init_comm m₁ m₂ tc hk]
    | some e => simp only [hl]; rw [bump_bump_comm m₁ m₂ e tc hk]
  · have h21 : entityKey m₂ ≠ entityKey m₁ := fun hh => hk hh.symm
    unfold applyEntity
    congr 1
    rw [Finmap.lookup_insert_of_ne _ h21, Finmap.lookup_insert_of_ne _ hk,
      Finmap.insert_insert_of_ne _ hk]

theorem applyRelTable_comm (g : Graph) (r₁ r₂ : RelationMention) :
    applyRelTable (applyRelTable g r₁) r₂ = applyRelTable (applyRelTable g r₂) r₁ := by
  by_cases hk : relKey r₁ = relKey r₂
  · unfold applyRelTable
    congr 1
    rw [← hk, Finmap.lookup_insert, Finmap.lookup_insert,
      Finmap.insert_insert, Finmap.insert_insert]
    cases hl : g.relations.lookup (relKey r₁) with
    | none => simp [hl, Finset.pair_comm]
    | some d => simp [hl, Finset.Insert.comm]
  · have h21 : relKey r₂ ≠ relKey r₁ := fun hh => hk hh.symm
    unfold applyRelTable
    congr 1
    rw [Finmap.lookup_insert_of_ne _ h21, Finmap.lookup_insert_of_ne _ hk,
      Finmap.insert_insert_of_ne _ hk]

theorem applyEntity_applyRelTable (g : Graph) (m : EntityMention) (r : RelationMention) :
    applyEntity (applyRelTable g r) m = applyRelTable (applyEntity g m) r := rfl

theorem applyMention_rel (g : Graph) (r : RelationMention) :
    applyMention g (.rel r) =
      applyRelTable (applyEntity (applyEntity g r.subjectMention) r.objectMention) r := rfl

theorem applyEntity_applyRelation_comm (g : Graph) (m : EntityMention) (r : RelationMention)
    (tcs : TieCompat m r.subjectMention) (tco : TieCompat m r.objectMention) :
    applyMention (applyEntity g m) (.rel r) = applyEntity (applyMention g (.rel r)) m := by
  rw [applyMention_rel, applyMention_rel, applyEntity_applyRelTable]
  congr 1
  rw [applyEntity_comm g m r.subjectMention tcs,
    applyEntity_comm (applyEntity g r.subjectMention) m r.objectMention tco]

theorem applyRelation_comm (g : Graph) (r₁ r₂ : RelationMention)
    (tss : TieCompat r₁.subjectMention r₂.subjectMention)
    (tso : TieCompat r₁.subjectMention r₂.objectMention)
    (tos : TieCompat r₁.objectMention r₂.subjectMention)
    (too : TieCompat r₁.objectMention r₂.objectMention) :
    applyMention (applyMention g (.rel r₁)) (.rel r₂) =
      applyMention (applyMention g (.rel r₂)) (.rel r₁) := by
  rw [applyMention_rel, applyMention_rel, applyMention_rel, applyMention_rel,
    applyEntity_applyRelTable, applyEntity_applyRelTable,
    applyEntity_applyRelTable, applyEntity_applyRelTable,
    applyRelTable_comm]
  congr 2
  rw [applyEntity_comm (applyEntity g r₁.subjectMention) r₁.objectMention r₂.subjectMention tos]
  rw [applyEntity_comm g r₁.subjectMention r₂.subjectMention tss]
  rw [applyEntity_comm
    (applyEntity (applyEntity g r₂.subjectMention) r₁.subjectMention)
    r₁.objectMention r₂.objectMention too]
  rw [applyEntity_comm (applyEntity g r₂.subjectMention) r₁.subjectMention r₂.objectMention tso]

theorem mentionCompat_swap {a b : Mention} (h : MentionCompat a b) : MentionCompat b a :=
  fun x hx y hy => tieCompat_swap (h y hy x hx)

theorem applyMention_comm (g : Graph) (a b : Mention) (h : MentionCompat a b) :
    applyMention (applyMention g a) b = applyMention (applyMention g b) a := by
  cases a with
  | ent m₁ =>
    cases b with
    | ent m₂ =>
      exact applyEntity_comm g m₁ m₂
        (h m₁ (by simp [constituents]) m₂ (by simp [constituents]))
    | rel r =>
      exact applyEntity_applyRelation_comm g m₁ r
        (h m₁ (by simp [constituents]) r.subjectMention (by simp [constituents]))
        (h m₁ (by simp [constituents]) r.objectMention (by simp [constituents]))
  | rel r₁ =>
    cases b with
    | ent m₂ =>
      exact (applyEntity_applyRelation_comm g m₂ r₁
        (mentionCompat_swap h m₂ (by simp [constituents]) r₁.subjectMention
          (by simp [constituents]))
        (mentionCompat_swap h m₂ (by simp [constituents]) r₁.objectMention
          (by simp [constituents]))).symm
    | rel r₂ =>
      exact applyRelation_comm g r₁ r₂
        (h r₁.subjectMention (by simp [constituents]) r₂.subjectMention (by simp [constituents]))
        (h r₁.subjectMention (by simp [constituents]) r₂.objectMention (by simp [constituents]))
        (h r₁.objectMention (by simp [constituents]) r₂.subjectMention (by simp [constituents]))
        (h r₁.objectMention (by simp [constituents]) r₂.objectMention (by simp [constituents]))

theorem mergeMentions_perm (ms ms' : List Mention) (p : ms.Perm ms')
    (h : TieFree ms) (g : Graph) : mergeMentions g ms = mergeMentions g ms' := by
  unfold mergeMentions
  unfold TieFree at h
  induction p generalizing g with
  | nil => rfl
  | cons x p ih =>
    simp only [List.foldl_cons]
    exact ih (fun a ha b hb =>
      h a (List.mem_cons_of_mem x ha) b (List.mem_cons_of_mem x hb)) (applyMention g x)
  | swap x y l =>
    simp only [List.foldl_cons]
    rw [applyMention_comm g y x (h y (by simp) x (by simp))]
  | trans p₁ p₂ ih₁ ih₂ =>
    rw [ih₁ h g]
    exact ih₂ (fun a ha b hb =>
      h a (p₁.mem_iff.mpr ha) b (p₁.mem_iff.mpr hb)) g

/-- C1 as stated is false on the modelled merge: two mentions of the same
entity key that tie on both confidence and chunk order but differ in
surface form make the first-seen canonical-name rule order-dependent; the
two orders of this pair yield different graphs (different canonicalName),
although the lists are permutations of each other. -/
theorem C1_counterexample_order_dependent_tie :
    [c1TieA, c1TieB].Perm [c1TieB, c1TieA] ∧
    mergeMentions Graph.empty [c1TieA, c1TieB] ≠
      mergeMentions Graph.empty [c1TieB, c1TieA] :=
  ⟨by decide, by decide⟩

/-- C1 (amended): merging is insensitive to batch granularity
(chunk-by-chunk equals one batch), and any permutation of a mention batch
yields the identical final graph provided no two mentions of the same
entity key tie on both confidence and source chunk order with different
surface forms; without that proviso the first-seen canonicalName rule is
order-dependent. -/
theorem C1_merge_order_independent :
    (∀ (g : Graph) (l₁ l₂ : List Mention),
      mergeMentions g (l₁ ++ l₂) = mergeMentions (mergeMentions g l₁) l₂) ∧
    (∀ (g : Graph) (ms ms' : List Mention), TieFree ms → ms.Perm ms' →
      mergeMentions g ms = mergeMentions g ms') :=
  ⟨fun g l₁ l₂ => by simp [mergeMentions],
   fun g ms ms' h p => mergeMentions_perm ms ms' p h g⟩

/-- Witness: the amended C1 at the two-chunk example batch, merged in one
batch versus chunk-by-chunk, and against a reversal of the whole mention
list. -/
theorem C1_merge_order_independent_witness :
    (mergeMentions Graph.empty (c1Batch₁ ++ c1Batch₂) =
      mergeMentions (mergeMentions Graph.empty c1Batch₁) c1Batch₂) ∧
    TieFree c1List ∧ c1List.Perm c1List.reverse ∧
    mergeMentions Graph.empty c1List = mergeMentions Graph.empty c1List.reverse :=
  ⟨C1_merge_order_independent.1 Graph.empty c1Batch₁ c1Batch₂,
   by decide, by decide,
   C1_merge_order_independent.2 Graph.empty c1List c1List.reverse (by decide) (by decide)⟩

theorem mem_keys_applyRelTable (g : Graph) (r : RelationMention) (k : RelKey) :
    k ∈ (applyRelTable g r).relations.keys ↔ k = relKey r ∨ k ∈ g.relations.keys := by
  simp [applyRelTable, Finmap.mem_keys, Finmap.mem_insert]

theorem mem_relKeys_mergeMentions (g : Graph) (ms : List Mention) (k : RelKey) :
    k ∈ (mergeMentions g ms).relations.keys ↔
      k ∈ g.relations.keys ∨ k ∈ (relMentions ms).map relKey := by
  induction ms generalizing g with
  | nil => simp [mergeMentions, relMentions]
  | cons a ms ih =>
    have h1 : mergeMentions g (a :: ms) = mergeMentions (applyMention g a) ms := rfl
    rw [h1, ih]
    cases a with
    | ent m =>
      have h2 : (applyMention g (.ent m)).relations = g.relations := rfl
      rw [h2]
      simp [relMentions]
    | rel r =>
      have h2 : (applyMention g (.rel r)).relations = (applyRelTable g r).relations := rfl
      have h3 : k ∈ (applyMention g (.rel r)).relations.keys ↔
          k = relKey r ∨ k ∈ g.relations.keys := by
        rw [Finmap.mem_keys, h2, ← Finmap.mem_keys, mem_keys_applyRelTable]
      rw [h3]
      simp [relMentions]
      tauto

/-- C2: canonical relations are deduplicated by
(subjectEntityId, predicateLabel, objectEntityId): a merge never replaces
an existing relation; supportCount grows by exactly the number of relation
mentions carrying the key and the provenance chunk-id set only
accumulates, so supportCount counts the mentions merged into the relation
and no chunk id is dropped.  In particular the spec's two Sarah/prismaticAI
works_at mentions from two chunks merge into exactly one relation with
supportCount 2 and both chunk ids. -/
theorem C2_relation_dedup_accumulates :
    (∀ (g : Graph) (ms : List Mention) (k : RelKey),
      relSupport (mergeMentions g ms) k = relSupport g k + relHits ms k) ∧
    (∀ (g : Graph) (ms : List Mention) (k : RelKey),
      relChunks (mergeMentions g ms) k = relChunks g k ∪ relChunkIds ms k) ∧
    ((mergeMentions Graph.empty [.rel c2Rel₁, .rel c2Rel₂]).relations.keys = {c2Key} ∧
      relSupport (mergeMentions Graph.empty [.rel c2Rel₁, .rel c2Rel₂]) c2Key = 2 ∧
      relChunks (mergeMentions Graph.empty [.rel c2Rel₁, .rel c2Rel₂]) c2Key = {0, 1}) := by
  refine ⟨relSupport_mergeMentions, relChunks_mergeMentions, ?_, ?_, ?_⟩
  · ext x
    rw [mem_relKeys_mergeMentions]
    have h1 : relKey c2Rel₁ = c2Key := by decide
    have h2 : relKey c2Rel₂ = c2Key := by decide
    simp [relMentions, h1, h2, Graph.empty]
  · rw [relSupport_mergeMentions]
    decide
  · rw [relChunks_mergeMentions]
    decide

/-- C3: every reachable graph has exactly one canonical entity per
distinct (normalizedName, type) key: an entity key is present after a
merge exactly when it was present before or some merged mention resolves
to it, each entity's mentionCount counts exactly the mentions whose key
equals its own, and two mentions resolve to the same entity exactly when
their normalized surface forms and types agree (no fuzzy matching). -/
theorem C3_entity_dedup_by_key :
    (∀ (g : Graph) (ms : List Mention) (k : EntityKey),
      k ∈ (mergeMentions g ms).entities.keys ↔
        k ∈ g.entities.keys ∨ k ∈ (ms.flatMap constituents).map entityKey) ∧
    (∀ (g : Graph) (ms : List Mention) (k : EntityKey),
      mentionCountOf (mergeMentions g ms) k = mentionCountOf g k + keyHits ms k) ∧
    (∀ m₁ m₂ : EntityMention,
      entityKey m₁ = entityKey m₂ ↔
        (normalizeSurface m₁.surfaceForm = normalizeSurface m₂.surfaceForm ∧
          m₁.proposedType = m₂.proposedType)) :=
  ⟨mem_keys_mergeMentions, mentionCountOf_mergeMentions,
   fun m₁ m₂ => by simp [entityKey, Prod.ext_iff]⟩

/-- C9: the alias set of an entity never loses a recorded surface form:
after any further sequence of merges the earlier alias set is contained in
the later one. -/
theorem C9_aliases_monotone (g : Graph) (ms : List Mention) (k : EntityKey) :
    aliasesOf g k ⊆ aliasesOf (mergeMentions g ms) k :=
  aliasesOf_mergeMentions_subset g ms k

/-! ### Extraction pipeline lemmas -/

theorem extractChunk_eq_none_iff (ex : Collaborator) (c : Nat) :
    extractChunk ex c = none ↔ ∀ i < retryLimit, ∃ e, ex c i = .error e := by
  unfold extractChunk retryLimit
  constructor
  · intro h i hi
    cases h0 : ex c 0 <;> simp [attemptFrom, h0] at h
    cases h1 : ex c 1 <;> simp [attemptFrom, h1] at h
    cases h2 : ex c 2 <;> simp [attemptFrom, h2] at h
    interval_cases i
    · exact ⟨_, h0⟩
    · exact ⟨_, h1⟩
    · exact ⟨_, h2⟩
  · intro hall
    obtain ⟨e0, h0⟩ := hall 0 (by omega)
    obtain ⟨e1, h1⟩ := hall 1 (by omega)
    obtain ⟨e2, h2⟩ := hall 2 (by omega)
    simp [attemptFrom, h0, h1, h2]

theorem processBatch_snd (ex : Collaborator) :
    ∀ (cids : List Nat) (g : Graph),
      (processBatch ex g cids).2 = cids.filter fun c => (extractChunk ex c).isNone := by
  intro cids
  induction cids with
  | nil => intro g; rfl
  | cons c rest ih =>
    intro g
    cases h : extractChunk ex c with
    | some r => simp [processBatch, h, ih, List.filter_cons]
    | none => simp [processBatch, h, ih, List.filter_cons]

theorem processBatch_fst (ex : Collaborator) :
    ∀ (cids : List Nat) (g : Graph),
      (processBatch ex g cids).1 =
        (cids.filterMap (extractChunk ex)).foldl
          (fun h r => mergeMentions h (mentionsOf r)) g := by
  intro cids
  induction cids with
  | nil => intro g; rfl
  | cons c rest ih =>
    intro g
    cases h : extractChunk ex c with
    | some r => simp [processBatch, h, ih, List.filterMap_cons]
    | none => simp [processBatch, h, ih, List.filterMap_cons]

theorem length_filterMap_add_none {α β : Type} (f : α → Option β) (l : List α) :
    (l.filterMap f).length + (l.filter fun a => (f a).isNone).length = l.length := by
  induction l with
  | nil => rfl
  | cons a l ih => cases h : f a <;> simp [List.filterMap_cons, List.filter_cons, h] <;> omega

/-- C8: an extraction failure on one chunk (after the bounded retry
budget of 3 attempts on transient collaborator failures) never aborts the
rest of the batch: the failed-chunk list is exactly the chunks whose three
attempts all fail, the returned graph is exactly the merge of all
successful extractions, and successes and failures partition the batch, so
M successes and N−M failures always add up to the N submitted chunks. -/
theorem C8_batch_partial_failure_isolation (ex : Collaborator) (g : Graph)
    (cids : List Nat) :
    (processBatch ex g cids).2 = cids.filter (fun c => (extractChunk ex c).isNone) ∧
    (processBatch ex g cids).1 =
      (cids.filterMap (extractChunk ex)).foldl
        (fun h r => mergeMentions h (mentionsOf r)) g ∧
    (cids.filterMap (extractChunk ex)).length + (processBatch ex g cids).2.length
      = cids.length ∧
    (∀ c : Nat, extractChunk ex c = none ↔ ∀ i < retryLimit, ∃ e, ex c i = .error e) := by
  refine ⟨processBatch_snd ex cids g, processBatch_fst ex cids g, ?_,
    fun c => extractChunk_eq_none_iff ex c⟩
  rw [processBatch_snd ex cids g]
  exact length_filterMap_add_none _ _

/-! ### Retriever lemmas -/

theorem mem_insertByRelId (x y : RelEntry) (l : List RelEntry) :
    y ∈ insertByRelId x l ↔ y = x ∨ y ∈ l := by
  induction l with
  | nil => simp [insertByRelId]
  | cons z zs ih =>
    unfold insertByRelId
    split_ifs with h
    · simp
    · simp [ih]
      tauto

theorem sorted_insertByRelId (x : RelEntry) (l : List RelEntry)
    (h : l.Pairwise fun a b => a.relationId ≤ b.relationId) :
    (insertByRelId x l).Pairwise fun a b => a.relationId ≤ b.relationId := by
  induction l with
  | nil => simp [insertByRelId]
  | cons z zs ih =>
    rw [List.pairwise_cons] at h
    unfold insertByRelId
    split_ifs with hle
    · rw [List.pairwise_cons]
      refine ⟨?_, List.pairwise_cons.mpr h⟩
      intro b hb
      rcases List.mem_cons.mp hb with rfl | hb
      · exact hle
      · exact le_trans hle (h.1 b hb)
    · rw [List.pairwise_cons]
      refine ⟨?_, ih h.2⟩
      intro b hb
      rcases (mem_insertByRelId x b zs).mp hb with rfl | hb
      · omega
      · exact h.1 b hb

theorem sorted_sortByRelId (l : List RelEntry) :
    (sortByRelId l).Pairwise fun a b => a.relationId ≤ b.relationId := by
  induction l with
  | nil => simp [sortByRelId]
  | cons x xs ih => exact sorted_insertByRelId x (sortByRelId xs) ih

theorem mem_sortByRelId (x : RelEntry) (l : List RelEntry) :
    x ∈ sortByRelId l ↔ x ∈ l := by
  induction l with
  | nil => simp [sortByRelId]
  | cons z zs ih =>
    unfold sortByRelId
    rw [mem_insertByRelId, ih, List.mem_cons]

/-- C6: retrieve fails with NoSeedEntity exactly when the deterministic
seed-matching step (keyword matching against findEntitiesByName, no model
call) finds zero seed entities; the failure is a recoverable error value,
and the query "Who is the CEO of Mars Corp?" on the example graph fails
exactly this way. -/
theorem C6_no_seed_entity (q : String) (g : GS) (hd mn : Nat) :
    (retrieve q g hd mn = .error .NoSeedEntity ↔ seedKeys q g = []) ∧
    (seedKeys "Who is the CEO of Mars Corp?" gsExample = [] ∧
      retrieve "Who is the CEO of Mars Corp?" gsExample 2 50 = .error .NoSeedEntity) := by
  refine ⟨?_, by decide, by decide⟩
  unfold retrieve
  by_cases hs : (seedKeys q g).isEmpty
  · rw [if_pos hs]
    simp [List.isEmpty_iff.mp hs]
  · rw [if_neg hs]
    rw [List.isEmpty_iff] at hs
    simp [hs]

/-- C10: retrieval is deterministic: for a fixed graph snapshot and fixed
hopDepth/maxNodes, running retrieve twice on the same query returns
identical content, and a successful context's textual summary is exactly
one line per collected relation with the relations sorted by
relationId. -/
theorem C10_retrieve_deterministic (q : String) (g : GS) (hd mn : Nat) :
    retrieve q g hd mn = retrieve q g hd mn ∧
    (∀ ctx : RetrievalContext, retrieve q g hd mn = .ok ctx →
      ctx.textualSummary = ctx.subgraphRelations.map (relLine g) ∧
      ctx.subgraphRelations.Pairwise fun a b => a.relationId ≤ b.relationId) := by
  refine ⟨rfl, fun ctx hok => ?_⟩
  unfold retrieve at hok
  by_cases hs : (seedKeys q g).isEmpty
  · rw [if_pos hs] at hok
    simp at hok
  · rw [if_neg hs] at hok
    simp only [Except.ok.injEq] at hok
    subst hok
    exact ⟨rfl, sorted_sortByRelId _⟩

/-- Witness: determinism and the sorted summary at the example query on
the example graph. -/
theorem C10_retrieve_deterministic_witness :
    retrieve "Where does Sarah work?" gsExample 2 50 =
      retrieve "Where does Sarah work?" gsExample 2 50 ∧
    retrieve "Where does Sarah work?" gsExample 2 50 = .ok exampleCtx ∧
    exampleCtx.textualSummary = exampleCtx.subgraphRelations.map (relLine gsExample) ∧
    exampleCtx.subgraphRelations.Pairwise fun a b => a.relationId ≤ b.relationId :=
  ⟨(C10_retrieve_deterministic "Where does Sarah work?" gsExample 2 50).1, rfl,
   ((C10_retrieve_deterministic "Where does Sarah work?" gsExample 2 50).2 exampleCtx rfl).1,
   ((C10_retrieve_deterministic "Where does Sarah work?" gsExample 2 50).2 exampleCtx rfl).2⟩

theorem ReachWithin.mono {g : GS} {s : List EntityKey} {n : Nat} {k : EntityKey}
    (h : ReachWithin g s n k) : ∀ m, n ≤ m → ReachWithin g s m k := by
  induction h with
  | seed n k hk => intro m _; exact .seed m k hk
  | step n k k' h ha ih =>
    intro m hm
    cases m with
    | zero => exact absurd hm (by omega)
    | succ m' => exact .step m' k k' (ih m' (by omega)) ha

theorem expandLevels_length_le (g : GS) :
    ∀ (d : Nat) (frontier visited : List EntityKey),
      (expandLevels g d frontier visited).length ≤ d := by
  intro d
  induction d with
  | zero => intro f v; simp [expandLevels]
  | succ d ih =>
    intro f v
    by_cases h : (nextFrontier g f v).isEmpty
    · simp [expandLevels, h]
    · simp only [expandLevels, if_neg h, List.length_cons]
      exact Nat.succ_le_succ (ih _ _)

theorem mem_nextFrontier {g : GS} {frontier visited : List EntityKey} {k : EntityKey} :
    k ∈ nextFrontier g frontier visited ↔
      (∃ k₀ ∈ frontier, k ∈ adjKeys g k₀) ∧ k ∉ visited := by
  simp [nextFrontier, List.mem_filter, List.mem_dedup, List.mem_flatMap]

theorem expandLevels_reach (g : GS) (seeds : List EntityKey) :
    ∀ (d : Nat) (frontier visited : List EntityKey) (b : Nat),
      (∀ k ∈ frontier, ReachWithin g seeds b k) →
      ∀ (j : Nat) (L : List EntityKey),
        (expandLevels g d frontier visited)[j]? = some L →
        ∀ k ∈ L, ReachWithin g seeds (b + j + 1) k := by
  intro d
  induction d with
  | zero => intro f v b _ j L hL; simp [expandLevels] at hL
  | succ d ih =>
    intro f v b hf j L hL
    by_cases h : (nextFrontier g f v).isEmpty
    · simp [expandLevels, h] at hL
    · simp only [expandLevels, if_neg h] at hL
      have hnf : ∀ k ∈ nextFrontier g f v, ReachWithin g seeds (b + 1) k := by
        intro k hk
        obtain ⟨⟨k₀, hk₀, ha⟩, _⟩ := mem_nextFrontier.mp hk
        exact .step b k₀ k (hf k₀ hk₀) ha
      cases j with
      | zero =>
        simp only [List.getElem?_cons_zero, Option.some.injEq] at hL
        subst hL
        exact hnf
      | succ j' =>
        simp only [List.getElem?_cons_succ] at hL
        intro k hk
        have := ih (nextFrontier g f v) (v ++ nextFrontier g f v) (b + 1) hnf j' L hL k hk
        have harith : b + 1 + j' + 1 = b + (j' + 1) + 1 := by omega
        rwa [harith] at this

theorem expandLevels_not_visited (g : GS) :
    ∀ (d : Nat) (f v : List EntityKey),
      ∀ L ∈ expandLevels g d f v, (∀ k ∈ L, k ∉ v) ∧ L.Nodup := by
  intro d
  induction d with
  | zero => intro f v L hL; simp [expandLevels] at hL
  | succ d ih =>
    intro f v L hL
    by_cases h : (nextFrontier g f v).isEmpty
    · simp [expandLevels, h] at hL
    · simp only [expandLevels, if_neg h, List.mem_cons] at hL
      rcases hL with rfl | hL
      · refine ⟨fun k hk => (mem_nextFrontier.mp hk).2, ?_⟩
        exact (List.nodup_dedup _).filter _
      · have hin := ih (nextFrontier g f v) (v ++ nextFrontier g f v) L hL
        exact ⟨fun k hk hkv => hin.1 k hk (List.mem_append.mpr (Or.inl hkv)), hin.2⟩

theorem expandLevels_pairwise (g : GS) :
    ∀ (d : Nat) (f v : List EntityKey),
      (expandLevels g d f v).Pairwise fun A B => ∀ k ∈ A, k ∉ B := by
  intro d
  induction d with
  | zero => intro f v; simp [expandLevels]
  | succ d ih =>
    intro f v
    by_cases h : (nextFrontier g f v).isEmpty
    · simp [expandLevels, h]
    · simp only [expandLevels, if_neg h]
      refine List.Pairwise.cons ?_ (ih _ _)
      intro B hB k hkA hkB
      exact (expandLevels_not_visited g d _ _ B hB).1 k hkB
        (List.mem_append.mpr (Or.inr hkA))

theorem bfsLevels_pairwise (g : GS) (q : String) (hd : Nat) :
    (bfsLevels g q hd).Pairwise fun A B => ∀ k ∈ A, k ∉ B := by
  unfold bfsLevels
  refine List.Pairwise.cons ?_ (expandLevels_pairwise g hd _ _)
  intro B hB k hk hkB
  exact (expandLevels_not_visited g hd _ _ B hB).1 k hkB hk

theorem mem_take_of_before {α : Type} {A B : List α} {mn : Nat} {x y : α}
    (hx : x ∈ A) (hyA : y ∉ A) (hy : y ∈ (A ++ B).take mn) :
    x ∈ (A ++ B).take mn := by
  rw [List.take_append_eq_append_take] at hy ⊢
  rcases List.mem_append.mp hy with h | h
  · exact absurd (List.mem_of_mem_take h) hyA
  · have hpos : 0 < mn - A.length := by
      by_contra hc
      have hz : mn - A.length = 0 := by omega
      rw [hz] at h
      simp at h
    have hlen : A.length ≤ mn := by omega
    exact List.mem_append.mpr (Or.inl (by rw [List.take_of_length_le hlen]; exact hx))

/-- C5: whenever retrieve succeeds, the returned entities are exactly the
breadth-first levels from the seeds flattened in level order and truncated
at maxNodes, so the collected node count never exceeds maxNodes, every
collected entity is reachable from a seed within hopDepth hops, every
collected relation connects two collected entities, and truncation prefers
closer levels: whenever a farther-level node is kept, every node of any
closer level is kept too.  On the example graph, the query "Where does
Sarah work?" succeeds with Sarah's entityId among the seeds and the
Sarah/prismaticAI works_at relation in the subgraph. -/
theorem C5_retrieve_bfs_subgraph :
    (∀ (q : String) (g : GS) (hd mn : Nat) (ctx : RetrievalContext),
      retrieve q g hd mn = .ok ctx →
        ctx.subgraphEntities = (bfsLevels g q hd).flatten.take mn ∧
        ctx.subgraphEntities.length ≤ mn ∧
        (∀ k ∈ ctx.subgraphEntities, ReachWithin g ctx.seedEntityIds hd k) ∧
        (∀ r ∈ ctx.subgraphRelations,
          r.subject ∈ ctx.subgraphEntities ∧ r.object ∈ ctx.subgraphEntities) ∧
        (∀ (i j : Nat) (Li Lj : List EntityKey), i < j →
          (bfsLevels g q hd)[i]? = some Li → (bfsLevels g q hd)[j]? = some Lj →
          ∀ x ∈ Li, ∀ y ∈ Lj, y ∈ ctx.subgraphEntities → x ∈ ctx.subgraphEntities)) ∧
    (retrieve "Where does Sarah work?" gsExample 2 50 = .ok exampleCtx ∧
      ("sarah", "Person") ∈ exampleCtx.seedEntityIds ∧
      (⟨0, ("sarah", "Person"), "works_at", ("prismaticai", "Organization")⟩ : RelEntry) ∈
        exampleCtx.subgraphRelations) := by
  refine ⟨?_, rfl, by decide, by decide⟩
  intro q g hd mn ctx hok
  unfold retrieve at hok
  by_cases hs : (seedKeys q g).isEmpty
  · rw [if_pos hs] at hok
    simp at hok
  · rw [if_neg hs] at hok
    simp only [Except.ok.injEq] at hok
    subst hok
    refine ⟨rfl, ?_, ?_, ?_, ?_⟩
    · simpa [List.length_take] using Nat.min_le_left mn _
    · -- reachability
      intro k hk
      have hseed : ∀ k' ∈ seedKeys q g, ReachWithin g (seedKeys q g) 0 k' :=
        fun k' hk' => .seed 0 k' hk'
      have hkfl := List.mem_of_mem_take hk
      obtain ⟨L, hL, hkL⟩ := List.mem_flatten.mp hkfl
      obtain ⟨n, hn, hLn⟩ := List.getElem_of_mem hL
      cases n with
      | zero =>
        have : L = seedKeys q g := by simpa [bfsLevels] using hLn.symm
        subst this
        exact .seed hd k hkL
      | succ j =>
        have hj : j < (expandLevels g hd (seedKeys q g) (seedKeys q g)).length := by
          simpa [bfsLevels] using hn
        have hL? : (expandLevels g hd (seedKeys q g) (seedKeys q g))[j]? = some L := by
          have : (bfsLevels g q hd)[j + 1]? = some L := by
            rw [List.getElem?_eq_getElem hn, hLn]
          simpa [bfsLevels] using this
        have hreach := expandLevels_reach g (seedKeys q g) hd (seedKeys q g) (seedKeys q g)
          0 hseed j L hL? k hkL
        have hle : 0 + j + 1 ≤ hd := by
          have := expandLevels_length_le g hd (seedKeys q g) (seedKeys q g)
          omega
        exact hreach.mono hd hle
    · -- relations connect kept entities
      intro r hr
      rw [mem_sortByRelId, List.mem_filter] at hr
      have hc := hr.2
      simp only [Bool.and_eq_true, decide_eq_true_eq] at hc
      exact hc
    · -- truncation prefers closer levels
      intro i j Li Lj hij hLi hLj x hx y hy hykept
      obtain ⟨hilen, hLieq⟩ := List.getElem?_eq_some.mp hLi
      obtain ⟨hjlen, hLjeq⟩ := List.getElem?_eq_some.mp hLj
      have hsplit : (bfsLevels g q hd).flatten =
          ((bfsLevels g q hd).take (i + 1)).flatten ++
            ((bfsLevels g q hd).drop (i + 1)).flatten := by
        rw [← List.flatten_append, List.take_append_drop]
      have hLitake : Li ∈ (bfsLevels g q hd).take (i + 1) := by
        have hlt : i < ((bfsLevels g q hd).take (i + 1)).length := by
          simp [List.length_take]
          omega
        have := List.getElem_mem hlt
        simpa [List.getElem_take, hLieq] using this
      have hLjdrop : Lj ∈ (bfsLevels g q hd).drop (i + 1) := by
        have hlt : j - (i + 1) < ((bfsLevels g q hd).drop (i + 1)).length := by
          simp [List.length_drop]
          omega
        have := List.getElem_mem hlt
        have harith : i + 1 + (j - (i + 1)) = j := by omega
        simpa [List.getElem_drop, harith, hLjeq] using this
      have hxA : x ∈ ((bfsLevels g q hd).take (i + 1)).flatten :=
        List.mem_flatten.mpr ⟨Li, hLitake, hx⟩
      have hyA : y ∉ ((bfsLevels g q hd).take (i + 1)).flatten := by
        intro hyA
        obtain ⟨L', hL', hyL'⟩ := List.mem_flatten.mp hyA
        obtain ⟨i', hi', hL'eq⟩ := List.getElem_of_mem hL'
        have hi'lt : i' < i + 1 := by
          have := hi'
          simp [List.length_take] at this
          omega
        have hi'len : i' < (bfsLevels g q hd).length := by
          have := hi'
          simp [List.length_take] at this
          omega
        have hL'eq2 : (bfsLevels g q hd).get ⟨i', hi'len⟩ = L' := by
          rw [← hL'eq]
          simp [List.getElem_take]
        have hdisj := List.pairwise_iff_getElem.mp (bfsLevels_pairwise g q hd)
          i' j hi'len hjlen (by omega)
        rw [← hL'eq2] at hyL'
        rw [← hLjeq] at hy
        exact hdisj y hyL' hy
      have hykept' : y ∈ (((bfsLevels g q hd).take (i + 1)).flatten ++
          ((bfsLevels g q hd).drop (i + 1)).flatten).take mn := by
        rw [← hsplit]; exact hykept
      have := mem_take_of_before hxA hyA hykept'
      rw [← hsplit] at this
      exact this

/-- Witness: C5 instantiated at the example query on the example graph,
including a non-vacuous use of the closer-level preference (the level-1
node prismaticAI is kept, hence the level-0 seed sarah is kept). -/
theorem C5_retrieve_bfs_subgraph_witness :
    retrieve "Where does Sarah work?" gsExample 2 50 = .ok exampleCtx ∧
    exampleCtx.subgraphEntities.length ≤ 50 ∧
    ReachWithin gsExample exampleCtx.seedEntityIds 2 ("prismaticai", "Organization") ∧
    ("sarah", "Person") ∈ exampleCtx.subgraphEntities :=
  ⟨rfl,
   (C5_retrieve_bfs_subgraph.1 "Where does Sarah work?" gsExample 2 50 exampleCtx rfl).2.1,
   (C5_retrieve_bfs_subgraph.1 "Where does Sarah work?" gsExample 2 50 exampleCtx
      rfl).2.2.1 ("prismaticai", "Organization") (by decide),
   (C5_retrieve_bfs_subgraph.1 "Where does Sarah work?" gsExample 2 50 exampleCtx
      rfl).2.2.2.2 0 1 [("sarah", "Person")] [("prismaticai", "Organization")]
      (by omega) (by decide) (by decide) ("sarah", "Person") (by decide)
      ("prismaticai", "Organization") (by decide) (by decide)⟩

end KG
